import Mathlib

/-!
Verification development for the daisyway repository.

We give a shallow embedding of the parts of the program that the
specification's claims are about: the SHAKE-256 based hash-domain and key
derivation (`internal/daisyway/crypto/{hash_domain,basics}.rs`), the TCP
server connection manager (`internal/daisyway/net/tcp_server/connection_manager.rs`),
the OSK deadman worker (`internal/osk/deadman.rs`), the rekey wire messages
(`internal/daisyway/crypto/{server,client}.rs`), the ETSI-014 response
parsing (`internal/etsi014.rs`) and the PSK configuration default
(`internal/daisyway/setup.rs`).

Bytes are modelled as `Nat` (values < 256), byte strings as `List Nat`,
64-bit lanes as `Nat` with explicit masking modulo `2 ^ 64`.
-/

namespace Daisyway

/-! ## SHAKE-256 (Keccak) — model of the `sha3` crate's `Shake256`

The `sha3` crate is a library dependency (not part of this repository's
sources); we embed a full executable Keccak-f[1600] / SHAKE-256 so that the
hash-domain operations of `hash_domain.rs` are genuinely executable. -/

/-- 64-bit mask. -/
def mask64 : Nat := 2 ^ 64 - 1

/-- Truncate to 64 bits. -/
def w64 (x : Nat) : Nat := x &&& mask64

/-- 64-bit left rotation. -/
def rotl64 (x n : Nat) : Nat :=
  ((x <<< (n % 64)) ||| (x >>> (64 - n % 64))) &&& mask64

/-- Read lane (x, y) from a 25-lane state (index x + 5 * y). -/
def lane (s : List Nat) (x y : Nat) : Nat := s.getD (x % 5 + 5 * (y % 5)) 0

/-- Keccak θ step. -/
def theta (s : List Nat) : List Nat :=
  let c := fun x => lane s x 0 ^^^ lane s x 1 ^^^ lane s x 2 ^^^ lane s x 3 ^^^ lane s x 4
  let d := fun x => c ((x + 4) % 5) ^^^ rotl64 (c ((x + 1) % 5)) 1
  (List.range 25).map (fun i => s.getD i 0 ^^^ d (i % 5))

/-- The ρ offset table entries, computed as in FIPS 202: walking the π
orbit from lane (1, 0), step `t` assigns offset `(t+1)(t+2)/2 mod 64` to
the current lane (keyed by x + 5 * y). -/
def rhoEntries : Nat → Nat → Nat × Nat → List (Nat × Nat)
  | 0, _, _ => []
  | n + 1, t, (x, y) =>
    (x + 5 * y, (t + 1) * (t + 2) / 2 % 64)
      :: rhoEntries n (t + 1) (y, (2 * x + 3 * y) % 5)

/-- Keccak ρ rotation offsets, indexed by x + 5 * y (lane (0, 0) keeps
offset 0). -/
def rhoOffsets : List Nat :=
  (List.range 25).map (fun i => ((rhoEntries 24 0 (1, 0)).lookup i).getD 0)

/-- Keccak ρ and π steps combined: the lane at (x, y) of the result is the
rotated lane at ((x + 3 * y) % 5, x) of the input. -/
def rhoPi (s : List Nat) : List Nat :=
  (List.range 25).map (fun i =>
    let x := i % 5
    let y := i / 5
    let sx := (x + 3 * y) % 5
    let sy := x
    rotl64 (lane s sx sy) (rhoOffsets.getD (sx % 5 + 5 * (sy % 5)) 0))

/-- Keccak χ step. -/
def chi (s : List Nat) : List Nat :=
  (List.range 25).map (fun i =>
    let x := i % 5
    let y := i / 5
    lane s x y ^^^ ((lane s (x + 1) y ^^^ mask64) &&& lane s (x + 2) y))

/-- The degree-8 LFSR of FIPS 202 (x⁸ + x⁶ + x⁵ + x⁴ + 1), iterated `n`
times from register value `r`. -/
def keccakLfsr : Nat → Nat → Nat
  | 0, r => r
  | n + 1, r => keccakLfsr n (((r <<< 1) ^^^ ((r >>> 7) * 0x71)) &&& 0xFF)

/-- The round-constant bit `rc(t)` of FIPS 202. -/
def rcBit (t : Nat) : Nat := keccakLfsr (t % 255) 1 &&& 1

/-- The `i`-th Keccak round constant: bit `2^j - 1` is `rc(7i + j)`. -/
def roundConstant (i : Nat) : Nat :=
  (List.range 7).foldl (fun acc j => acc ||| rcBit (7 * i + j) <<< (2 ^ j - 1)) 0

/-- Keccak round constants for the 24 rounds of Keccak-f[1600]. -/
def roundConstants : List Nat := (List.range 24).map roundConstant

/-- One Keccak round. -/
def keccakRound (s : List Nat) (rc : Nat) : List Nat :=
  match chi (rhoPi (theta s)) with
  | [] => []
  | a :: rest => (a ^^^ rc) :: rest

/-- The Keccak-f[1600] permutation (24 rounds). -/
def keccakF (s : List Nat) : List Nat := roundConstants.foldl keccakRound s

/-- Interpret (up to) 8 bytes as a little-endian 64-bit lane. -/
def bytesToLane (bs : List Nat) : Nat :=
  bs.foldr (fun b acc => b % 256 + 256 * acc) 0

/-- The 8 little-endian bytes of a 64-bit lane. -/
def laneToBytes (x : Nat) : List Nat :=
  (List.range 8).map (fun i => (x >>> (8 * i)) % 256)

/-- Split a byte string into consecutive chunks of `k + 1` bytes. -/
def chunksOf (k : Nat) : List Nat → List (List Nat)
  | [] => []
  | b :: rest => (b :: rest.take k) :: chunksOf k (rest.drop k)
  termination_by l => l.length
  decreasing_by simp; omega

/-- Absorb one 136-byte rate block into the state and permute. -/
def absorbBlock (s : List Nat) (block : List Nat) : List Nat :=
  let lanes := (chunksOf 7 block).map bytesToLane
  keccakF ((List.range 25).map (fun i => s.getD i 0 ^^^ lanes.getD i 0))

/-- SHAKE-256 padding (pad10*1 with domain suffix 0x1F) to rate 136. -/
def shakePad (msg : List Nat) : List Nat :=
  let q := 136 - msg.length % 136
  if q = 1 then msg ++ [0x9F]
  else msg ++ 0x1F :: List.replicate (q - 2) 0 ++ [0x80]

/-- The 136 rate bytes of a state. -/
def stateBytes (s : List Nat) : List Nat :=
  ((s.take 17).map laneToBytes).flatten

/-- Squeeze `n` rate blocks. -/
def squeezeBlocks : Nat → List Nat → List Nat
  | 0, _ => []
  | n + 1, s => stateBytes s ++ squeezeBlocks n (keccakF s)

/-- SHAKE-256 with an arbitrary output length, on byte strings. -/
def shake256 (msg : List Nat) (outLen : Nat) : List Nat :=
  let s0 := (shakePad msg |> chunksOf 135).foldl absorbBlock (List.replicate 25 0)
  (squeezeBlocks (outLen / 136 + 1) s0).take outLen

/-! ## Hash domain (`internal/daisyway/crypto/hash_domain.rs`) -/

/-- `pub const KEY_LENGTH: usize = 32;` -/
def KEY_LENGTH : Nat := 32

/-- `pub const REKEY_INTERVAL: u64 = 120;` -/
def REKEY_INTERVAL : Nat := 120

/-- `pub struct HashDomain { pub key: Key }` — `Key` is `[u8; 32]`,
modelled as a byte list. -/
structure HashDomain where
  key : List Nat
  deriving Repr, DecidableEq

/-- `HashDomain::new`. -/
def HashDomain.new (key : List Nat) : HashDomain := ⟨key⟩

/-- `HashDomain::zero()` — the all-zero 32-byte key. -/
def HashDomain.zero : HashDomain := ⟨List.replicate KEY_LENGTH 0⟩

/-- `HashDomain::mix_read::<Key>(data)`: read 32 bytes of
`SHAKE256(self.key ‖ data)`. -/
def HashDomain.mix_read (self : HashDomain) (data : List Nat) : List Nat :=
  shake256 (self.key ++ data) KEY_LENGTH

/-- `HashDomain::mix(data)`: new domain keyed by the first 32 output bytes of
`SHAKE256(self.key ‖ data)`. -/
def HashDomain.mix (self : HashDomain) (data : List Nat) : HashDomain :=
  ⟨self.mix_read data⟩

/-- `HashDomain::into_key()`. -/
def HashDomain.into_key (self : HashDomain) : List Nat := self.key

/-! ## Protocol domains and key derivation (`internal/daisyway/crypto/basics.rs`) -/

/-- `ProtocolDomains::PROTOCOL_DOMAIN`, the fixed ASCII byte string. -/
def PROTOCOL_DOMAIN : List Nat :=
  ("Daisyway v1 by Paul Spooren & Karolin Varner, Feb-2025 with Shake256").data.map Char.toNat

/-- The ASCII bytes of `b"derive key"`. -/
def deriveKeyLabel : List Nat := ("derive key").data.map Char.toNat

/-- `ProtocolDomains::root()`. -/
def ProtocolDomains.root : HashDomain := HashDomain.zero.mix PROTOCOL_DOMAIN

/-- `ProtocolDomains::derive_key()`. -/
def ProtocolDomains.derive_key : HashDomain := ProtocolDomains.root.mix deriveKeyLabel

/-- Lexicographic strict order on byte arrays: the `Ord` instance of
`[u8; 32]` used by `<[PeerId; 2]>::sort()` (equal lengths compare
element-wise; a strict prefix compares as smaller). -/
def arrayLt : List Nat → List Nat → Bool
  | [], [] => false
  | [], _ :: _ => true
  | _ :: _, [] => false
  | x :: xs, y :: ys => if x < y then true else if y < x then false else arrayLt xs ys

/-- `WireGuardConnectionId::new(self_public_key, peer_public_key)`:
`[a, b].cas(|v| v.sort())`, a stable two-element sort, serialized as
`first_peer ‖ second_peer` (the struct is `#[repr(C, packed)]`). -/
def WireGuardConnectionId.new (self_public_key peer_public_key : List Nat) : List Nat :=
  if arrayLt peer_public_key self_public_key
  then peer_public_key ++ self_public_key
  else self_public_key ++ peer_public_key

/-- A UUID as in the `uuid` crate: 16 bytes in RFC 4122 (big-endian field)
order, which is exactly what `Uuid::as_bytes` returns and
`Uuid::from_bytes` consumes. -/
structure Uuid where
  bytes : List Nat
  deriving Repr, DecidableEq

/-- `Uuid::as_bytes()` — the RFC byte order the `uuid` crate stores. -/
def Uuid.as_bytes (u : Uuid) : List Nat := u.bytes

/-- `Uuid::from_bytes(bytes)`. -/
def Uuid.from_bytes (bs : List Nat) : Uuid := ⟨bs⟩

/-- `Uuid::to_bytes_le()`: the first three UUID fields (u32, u16, u16) are
byte-reversed, the trailing 8 bytes are unchanged. -/
def Uuid.to_bytes_le (u : Uuid) : List Nat :=
  (u.bytes.take 4).reverse ++ ((u.bytes.drop 4).take 2).reverse
    ++ ((u.bytes.drop 6).take 2).reverse ++ u.bytes.drop 8

/-- `Etsi014Key { id: Uuid, key: Key }` (`internal/etsi014.rs`). -/
structure Etsi014Key where
  id : Uuid
  key : List Nat
  deriving Repr, DecidableEq

/-- `DaisywayProtocolParameters`. -/
structure DaisywayProtocolParameters where
  psk : List Nat
  local_peer_id : List Nat
  remote_peer_id : List Nat
  deriving Repr, DecidableEq

/-- The serialized bytes of `KdfInput::new(psk, nonce, qkd_key, conn_id)`:
the `#[repr(C, packed)]` struct is its fields in declaration order with no
padding, and `KdfInput::new` stores `qkd_key_id.to_bytes_le()`. -/
def KdfInput.bytes (psk nonce : List Nat) (qkd_key : Etsi014Key)
    (wireguard_connection_id : List Nat) : List Nat :=
  psk ++ nonce ++ qkd_key.key ++ qkd_key.id.to_bytes_le ++ wireguard_connection_id

/-- `derive_daisyway_key(params, nonce, key)`. -/
def derive_daisyway_key (params : DaisywayProtocolParameters) (nonce : List Nat)
    (key : Etsi014Key) : List Nat :=
  let conn_id := WireGuardConnectionId.new params.local_peer_id params.remote_peer_id
  let kdf_input := KdfInput.bytes params.psk nonce key conn_id
  (ProtocolDomains.derive_key.mix kdf_input).into_key

/-! ## Spec-side formulation of the key derivation

These definitions follow the wording of the specification (§4.2 and
Scenario 1) rather than the source, for comparison with
`derive_daisyway_key`. -/

/-- Spec-side lexicographic `≤` on byte strings. -/
def lexLe : List Nat → List Nat → Bool
  | [], _ => true
  | _ :: _, [] => false
  | x :: xs, y :: ys => if x < y then true else if y < x then false else lexLe xs ys

/-- Spec-side: "the two peer ids sorted lexicographically", concatenated. -/
def sortedPeersSpec (a b : List Nat) : List Nat :=
  if lexLe a b then a ++ b else b ++ a

/-- Spec-side KDF input:
`psk ‖ nonce ‖ qkd_key ‖ qkd_key_id as little-endian UUID bytes ‖ sorted peer ids`. -/
def specKdfInput (psk nonce qkd_key : List Nat) (qkd_key_id : Uuid)
    (a b : List Nat) : List Nat :=
  psk ++ nonce ++ qkd_key ++ qkd_key_id.to_bytes_le ++ sortedPeersSpec a b

/-! ### Order lemmas for the two-element peer sort -/

theorem arrayLt_asymm : ∀ a b : List Nat, arrayLt a b = true → arrayLt b a = false := by
  intro a
  induction a with
  | nil => intro b h; cases b <;> simp [arrayLt] at *
  | cons x as ih =>
    intro b h
    cases b with
    | nil => simp [arrayLt] at h
    | cons y bs =>
      simp only [arrayLt] at h ⊢
      by_cases h1 : x < y
      · have : ¬ y < x := Nat.lt_asymm h1
        simp [h1, this]
      · by_cases h2 : y < x
        · simp [h1, h2] at h
        · simp only [h1, h2, if_false] at h ⊢
          exact ih bs h

theorem arrayLt_total_eq : ∀ a b : List Nat,
    arrayLt a b = false → arrayLt b a = false → a = b := by
  intro a
  induction a with
  | nil => intro b h1 h2; cases b <;> simp [arrayLt] at *
  | cons x as ih =>
    intro b h1 h2
    cases b with
    | nil => simp [arrayLt] at h2
    | cons y bs =>
      simp only [arrayLt] at h1 h2
      by_cases hxy : x < y
      · simp [hxy] at h1
      · by_cases hyx : y < x
        · simp [hxy, hyx] at h2
        · have hx : x = y := Nat.le_antisymm (Nat.not_lt.mp hyx) (Nat.not_lt.mp hxy)
          simp only [hxy, hyx, if_false] at h1 h2
          exact hx ▸ congrArg (x :: ·) (ih bs h1 h2)

theorem lexLe_eq_not_arrayLt : ∀ a b : List Nat, lexLe a b = !arrayLt b a := by
  intro a
  induction a with
  | nil => intro b; cases b <;> simp [lexLe, arrayLt]
  | cons x as ih =>
    intro b
    cases b with
    | nil => simp [lexLe, arrayLt]
    | cons y bs =>
      simp only [lexLe, arrayLt]
      by_cases h1 : x < y
      · have : ¬ y < x := Nat.lt_asymm h1
        simp [h1, this]
      · by_cases h2 : y < x
        · simp [h1, h2]
        · simp [h1, h2, ih bs]

/-- The source's two-element sort agrees with the spec's lexicographic sort. -/
theorem connectionId_eq_spec (a b : List Nat) :
    WireGuardConnectionId.new a b = sortedPeersSpec a b := by
  unfold WireGuardConnectionId.new sortedPeersSpec
  rw [lexLe_eq_not_arrayLt]
  cases h : arrayLt b a <;> simp [h]

/-- The source's two-element sort is symmetric in its arguments. -/
theorem connectionId_symm (a b : List Nat) :
    WireGuardConnectionId.new a b = WireGuardConnectionId.new b a := by
  unfold WireGuardConnectionId.new
  cases h1 : arrayLt b a <;> cases h2 : arrayLt a b <;> simp
  · exact arrayLt_total_eq a b h2 h1 ▸ rfl
  · exact absurd (arrayLt_asymm b a h1) (by simp [h2])

theorem sortedPeersSpec_length (a b : List Nat) :
    (sortedPeersSpec a b).length = a.length + b.length := by
  unfold sortedPeersSpec
  cases lexLe a b <;> simp [Nat.add_comm]

theorem to_bytes_le_length (u : Uuid) (h : u.bytes.length = 16) :
    u.to_bytes_le.length = 16 := by
  unfold Uuid.to_bytes_le
  simp [h]

/-! ### Claims C1, C2, C8 -/

set_option maxRecDepth 8192 in
/-- C1 (counterexample): the claim states that the KDF input passed to the
final `mix` is exactly 144 octets; on the Scenario-1 inputs (and indeed on
any well-formed inputs) it is 176 octets: 32 (psk) + 32 (nonce) +
32 (qkd key) + 16 (uuid) + 64 (connection id). -/
theorem claim_C1_counterexample :
    (KdfInput.bytes (List.replicate 32 0) (List.replicate 32 3)
        ⟨⟨List.replicate 16 5⟩, List.replicate 32 4⟩
        (WireGuardConnectionId.new (List.replicate 32 1) (List.replicate 32 2))).length = 176
    ∧ (176 : Nat) ≠ 144 := by
  constructor
  · decide
  · decide

/-- C1 (amended: the KDF input is 176 octets, not 144): for all 32-byte
psk, peer ids, nonce and QKD key and 16-byte UUID, `derive_daisyway_key`
returns the 32-byte prefix of
`SHAKE256(derive_key_domain_key ‖ (psk ‖ nonce ‖ qkd_key ‖ qkd_key_id LE ‖ sorted peer ids))`,
the KDF input is exactly 176 octets in that exact field order with no
padding, the derive-key domain is `zero().mix(PROTOCOL_DOMAIN).mix(b"derive key")`,
`mix(data)` is the 32-byte prefix of `SHAKE256(key ‖ data)`, and the
Scenario-1 vector yields the stated reference value. -/
theorem claim_C1_amended (psk a b nonce qk : List Nat) (id : Uuid)
    (hp : psk.length = 32) (ha : a.length = 32) (hb : b.length = 32)
    (hn : nonce.length = 32) (hq : qk.length = 32) (hi : id.bytes.length = 16) :
    derive_daisyway_key ⟨psk, a, b⟩ nonce ⟨id, qk⟩
      = shake256 (ProtocolDomains.derive_key.into_key ++ specKdfInput psk nonce qk id a b) 32
    ∧ (specKdfInput psk nonce qk id a b).length = 176
    ∧ ProtocolDomains.derive_key = (HashDomain.zero.mix PROTOCOL_DOMAIN).mix deriveKeyLabel
    ∧ (∀ (d : HashDomain) (data : List Nat),
        d.mix data = HashDomain.new (shake256 (d.key ++ data) 32))
    ∧ derive_daisyway_key
          ⟨List.replicate 32 0, List.replicate 32 1, List.replicate 32 2⟩
          (List.replicate 32 3) ⟨⟨List.replicate 16 5⟩, List.replicate 32 4⟩
        = shake256 (ProtocolDomains.derive_key.into_key
            ++ specKdfInput (List.replicate 32 0) (List.replicate 32 3)
                 (List.replicate 32 4) ⟨List.replicate 16 5⟩
                 (List.replicate 32 1) (List.replicate 32 2)) 32 := by
  have hmain : ∀ (psk a b nonce qk : List Nat) (id : Uuid),
      derive_daisyway_key ⟨psk, a, b⟩ nonce ⟨id, qk⟩
        = shake256 (ProtocolDomains.derive_key.into_key
            ++ specKdfInput psk nonce qk id a b) 32 := by
    intro psk a b nonce qk id
    simp only [derive_daisyway_key, KdfInput.bytes, specKdfInput, HashDomain.mix,
      HashDomain.into_key, HashDomain.mix_read, HashDomain.new, connectionId_eq_spec,
      KEY_LENGTH, List.append_assoc]
  refine ⟨hmain psk a b nonce qk id, ?_, rfl, fun d data => rfl,
    hmain (List.replicate 32 0) (List.replicate 32 1) (List.replicate 32 2)
      (List.replicate 32 3) (List.replicate 32 4) ⟨List.replicate 16 5⟩⟩
  simp [specKdfInput, sortedPeersSpec_length, to_bytes_le_length id hi,
    hp, ha, hb, hn, hq]

/-- C1 witness: the amended claim instantiated on the Scenario-1 vector. -/
theorem claim_C1_amended_witness :
    (List.replicate 32 (0 : Nat)).length = 32
    ∧ derive_daisyway_key
          ⟨List.replicate 32 0, List.replicate 32 1, List.replicate 32 2⟩
          (List.replicate 32 3) ⟨⟨List.replicate 16 5⟩, List.replicate 32 4⟩
        = shake256 (ProtocolDomains.derive_key.into_key
            ++ specKdfInput (List.replicate 32 0) (List.replicate 32 3)
                 (List.replicate 32 4) ⟨List.replicate 16 5⟩
                 (List.replicate 32 1) (List.replicate 32 2)) 32
    ∧ (specKdfInput (List.replicate 32 0) (List.replicate 32 3) (List.replicate 32 4)
          ⟨List.replicate 16 5⟩ (List.replicate 32 1) (List.replicate 32 2)).length = 176 :=
  have h := claim_C1_amended (List.replicate 32 0) (List.replicate 32 1)
    (List.replicate 32 2) (List.replicate 32 3) (List.replicate 32 4)
    ⟨List.replicate 16 5⟩ (by simp) (by simp) (by simp) (by simp) (by simp) (by simp)
  ⟨by simp, h.1, h.2.1⟩

/-- C2: swapping `local_peer_id` and `remote_peer_id` leaves
`derive_daisyway_key` unchanged, for all inputs. -/
theorem claim_C2 (psk a b nonce : List Nat) (key : Etsi014Key) :
    derive_daisyway_key ⟨psk, a, b⟩ nonce key
      = derive_daisyway_key ⟨psk, b, a⟩ nonce key := by
  simp only [derive_daisyway_key]
  rw [connectionId_symm]

/-- C8 (counterexample): `PROTOCOL_DOMAIN` is 68 bytes long, not 66 as the
claim states. -/
theorem claim_C8_counterexample :
    PROTOCOL_DOMAIN.length = 68 ∧ ¬ PROTOCOL_DOMAIN.length = 66 := by
  constructor <;> decide

/-- C8 (amended: the string is 68 bytes, not 66): `PROTOCOL_DOMAIN` equals
the ASCII bytes of
`"Daisyway v1 by Paul Spooren & Karolin Varner, Feb-2025 with Shake256"`
with no terminator, its length is exactly 68, the root domain is
`HashDomain::zero().mix(PROTOCOL_DOMAIN)` and the derive-key domain is
`root.mix(b"derive key")`. -/
theorem claim_C8_amended :
    PROTOCOL_DOMAIN =
      [68, 97, 105, 115, 121, 119, 97, 121, 32, 118, 49, 32, 98, 121, 32, 80,
       97, 117, 108, 32, 83, 112, 111, 111, 114, 101, 110, 32, 38, 32, 75, 97,
       114, 111, 108, 105, 110, 32, 86, 97, 114, 110, 101, 114, 44, 32, 70,
       101, 98, 45, 50, 48, 50, 53, 32, 119, 105, 116, 104, 32, 83, 104, 97,
       107, 101, 50, 53, 54]
    ∧ PROTOCOL_DOMAIN.length = 68
    ∧ deriveKeyLabel = [100, 101, 114, 105, 118, 101, 32, 107, 101, 121]
    ∧ ProtocolDomains.root = HashDomain.zero.mix PROTOCOL_DOMAIN
    ∧ ProtocolDomains.derive_key = ProtocolDomains.root.mix deriveKeyLabel := by
  refine ⟨by decide, by decide, by decide, rfl, rfl⟩

/-! ## Connection manager (`internal/daisyway/net/tcp_server/connection_manager.rs`)

The manager's state is `next_connection_id`, the optional active connection
and the `BTreeMap` of budding connections. We model the `BTreeMap` as an
association list sorted strictly by key, and the per-connection
`AbortOnDropHandle`s as values of an arbitrary type `H` (dropping a handle
aborts the task; only the bookkeeping matters here). `SetOskReason` is from
`internal/osk/mod.rs`. -/

/-- `const MAX_BUDDING_CONNECTIONS: usize = 2000;` (`tcp_server/mod.rs`). -/
def MAX_BUDDING_CONNECTIONS : Nat := 2000

/-- `pub enum SetOskReason { Fresh, Stale }`. -/
inductive SetOskReason where
  | Fresh
  | Stale
  deriving Repr, DecidableEq

/-- The manager's mutable state. -/
structure MgrState (H : Type) where
  next_connection_id : Nat
  active_connection : Option (Nat × H)
  budding_connections : List (Nat × H)
  deriving Repr, DecidableEq

/-- The initial state set up by `ConnectionManager::new`. -/
def mgrInit (H : Type) : MgrState H :=
  { next_connection_id := 0, active_connection := none, budding_connections := [] }

/-- The three event kinds of `StreamEvent`. An accept carries the handle of
the just-spawned protocol task (the stream and address play no further
role in the manager's bookkeeping). -/
inductive MgrEvent (H : Type) where
  | accept (handle : H)
  | exit (connection_id : Nat)
  | osk (connection_id : Nat) (key : List Nat) (reason : SetOskReason)

/-- `BTreeMap::insert` on a key-sorted association list. -/
def btInsert {H : Type} (k : Nat) (v : H) : List (Nat × H) → List (Nat × H)
  | [] => [(k, v)]
  | q :: rest =>
    if k < q.1 then (k, v) :: q :: rest
    else if k = q.1 then (k, v) :: rest
    else q :: btInsert k v rest

/-- `BTreeMap::remove`'s returned value: lookup by key. -/
def btLookup {H : Type} (k : Nat) (m : List (Nat × H)) : Option H :=
  (m.find? (fun p => p.1 == k)).map (fun p => p.2)

/-- `BTreeMap::remove`'s effect on the map: erase the key. -/
def btErase {H : Type} (k : Nat) (m : List (Nat × H)) : List (Nat × H) :=
  m.filter (fun p => p.1 != k)

/-- An OSK forwarded to the sink handler: the originating connection id
together with the `(key, reason)` pair passed to `set_osk`. -/
structure Forwarded where
  connection_id : Nat
  key : List Nat
  reason : SetOskReason
  deriving Repr, DecidableEq

/-- `ConnectionManager::on_accept`: allocate the next id; if the budding
map is full, `pop_first` the smallest entry; insert the new connection. -/
def mgrOnAccept {H : Type} (s : MgrState H) (handle : H) : MgrState H :=
  let connection_id := s.next_connection_id
  let budding :=
    if s.budding_connections.length ≥ MAX_BUDDING_CONNECTIONS
    then s.budding_connections.tail
    else s.budding_connections
  { next_connection_id := connection_id + 1
    active_connection := s.active_connection
    budding_connections := btInsert connection_id handle budding }

/-- `ConnectionManager::on_exit`. -/
def mgrOnExit {H : Type} (s : MgrState H) (connection_id : Nat) : MgrState H :=
  if s.active_connection.map (fun p => p.1) = some connection_id then
    { s with active_connection := none }
  else
    { s with budding_connections := btErase connection_id s.budding_connections }

/-- `ConnectionManager::on_osk_from_budding`: remove the promoted id (if
absent, drop the event), `split_off` and drop every budding entry with a
smaller id, install the promoted connection as active, forward the OSK. -/
def mgrOnOskFromBudding {H : Type} (s : MgrState H) (connection_id : Nat)
    (key : List Nat) (reason : SetOskReason) : MgrState H × Option Forwarded :=
  match btLookup connection_id s.budding_connections with
  | none => (s, none)
  | some handle =>
    let b1 := btErase connection_id s.budding_connections
    let b2 := b1.filter (fun p => connection_id ≤ p.1)
    ({ s with active_connection := some (connection_id, handle)
              budding_connections := b2 },
     some ⟨connection_id, key, reason⟩)

/-- `ConnectionManager::on_osk`: classify by comparing the event's id with
the active id (no active connection compares as `Greater`). -/
def mgrOnOsk {H : Type} (s : MgrState H) (connection_id : Nat) (key : List Nat)
    (reason : SetOskReason) : MgrState H × Option Forwarded :=
  match s.active_connection with
  | some (active, _) =>
    if connection_id < active then (s, none)
    else if connection_id = active then (s, some ⟨connection_id, key, reason⟩)
    else mgrOnOskFromBudding s connection_id key reason
  | none => mgrOnOskFromBudding s connection_id key reason

/-- `ConnectionManager::on_event`. -/
def mgrStep {H : Type} (s : MgrState H) : MgrEvent H → MgrState H × Option Forwarded
  | .accept handle => (mgrOnAccept s handle, none)
  | .exit cid => (mgrOnExit s cid, none)
  | .osk cid key reason => mgrOnOsk s cid key reason

/-- Run the manager's serial event loop from a state, collecting the OSKs
forwarded to the sink handler in order. -/
def mgrRunFrom {H : Type} (s : MgrState H) :
    List (MgrEvent H) → MgrState H × List Forwarded
  | [] => (s, [])
  | e :: evs =>
    let r := mgrStep s e
    let rest := mgrRunFrom r.1 evs
    (rest.1, r.2.toList ++ rest.2)

/-- Run from the initial state. -/
def mgrRun {H : Type} (evs : List (MgrEvent H)) : MgrState H × List Forwarded :=
  mgrRunFrom (mgrInit H) evs

/-! ### Manager invariants -/

/-- Bookkeeping invariant of every reachable manager state: the budding map
is sorted strictly by id, every stored id is below the allocation counter,
every budding id is above the active id, and the budding map respects the
size bound. -/
structure MgrInv {H : Type} (s : MgrState H) : Prop where
  bud_sorted : s.budding_connections.Pairwise (fun p q => p.1 < q.1)
  bud_lt_next : ∀ p ∈ s.budding_connections, p.1 < s.next_connection_id
  active_lt_next : ∀ p, s.active_connection = some p → p.1 < s.next_connection_id
  active_lt_bud : ∀ p, s.active_connection = some p →
    ∀ q ∈ s.budding_connections, p.1 < q.1
  bud_bound : s.budding_connections.length ≤ MAX_BUDDING_CONNECTIONS

theorem btInsert_append {H : Type} (k : Nat) (v : H) :
    ∀ m : List (Nat × H), (∀ p ∈ m, p.1 < k) → btInsert k v m = m ++ [(k, v)] := by
  intro m
  induction m with
  | nil => intro _; rfl
  | cons q rest ih =>
    intro h
    have hq : q.1 < k := h q (List.mem_cons_self q rest)
    unfold btInsert
    rw [if_neg (by omega), if_neg (by omega)]
    simp only [List.cons_append, List.cons.injEq, true_and]
    exact ih (fun p hp => h p (List.mem_cons_of_mem q hp))

theorem btInsert_length {H : Type} (k : Nat) (v : H) :
    ∀ m : List (Nat × H), (btInsert k v m).length ≤ m.length + 1 := by
  intro m
  induction m with
  | nil => simp [btInsert]
  | cons q rest ih =>
    simp only [btInsert]
    by_cases h1 : k < q.1
    · simp [h1]
    · by_cases h2 : k = q.1
      · simp [h1, h2]
      · simp only [h1, h2, if_false, List.length_cons]
        omega

theorem btLookup_mem {H : Type} (k : Nat) (h : H) (m : List (Nat × H))
    (hl : btLookup k m = some h) : (k, h) ∈ m := by
  unfold btLookup at hl
  cases hf : m.find? (fun p => p.1 == k) with
  | none => rw [hf] at hl; simp at hl
  | some p =>
    rw [hf] at hl
    simp at hl
    have hmem := List.mem_of_find?_eq_some hf
    have hkey := List.find?_some hf
    simp at hkey
    cases p with
    | mk a b =>
      simp only at hkey hl
      rw [← hkey, ← hl]
      exact hmem

theorem head_le_of_sorted {H : Type} (m : List (Nat × H))
    (hs : m.Pairwise (fun p q => p.1 < q.1)) :
    ∀ p ∈ m.head?.toList, ∀ q ∈ m, p.1 ≤ q.1 := by
  cases m with
  | nil => simp
  | cons a rest =>
    intro p hp q hq
    simp only [List.head?_cons, Option.toList_some, List.mem_singleton] at hp
    subst hp
    rcases List.mem_cons.mp hq with h | h
    · rw [h]
    · exact Nat.le_of_lt ((List.pairwise_cons.mp hs).1 q h)

/-- Every manager step preserves the bookkeeping invariant. -/
theorem mgrInv_step {H : Type} (s : MgrState H) (e : MgrEvent H) (inv : MgrInv s) :
    MgrInv (mgrStep s e).1 := by
  cases e with
  | accept handle =>
    simp only [mgrStep, mgrOnAccept]
    set bud := if s.budding_connections.length ≥ MAX_BUDDING_CONNECTIONS
      then s.budding_connections.tail else s.budding_connections with hbud
    have hsub : bud.Sublist s.budding_connections := by
      rw [hbud]; split
      · exact List.tail_sublist _
      · exact List.Sublist.refl _
    have hmem : ∀ p ∈ bud, p ∈ s.budding_connections := fun p hp => hsub.mem hp
    have hlt : ∀ p ∈ bud, p.1 < s.next_connection_id :=
      fun p hp => inv.bud_lt_next p (hmem p hp)
    have hins : btInsert s.next_connection_id handle bud
        = bud ++ [(s.next_connection_id, handle)] := btInsert_append _ _ _ hlt
    refine ⟨?_, ?_, ?_, ?_, ?_⟩
    · rw [hins, List.pairwise_append]
      refine ⟨inv.bud_sorted.sublist hsub, List.pairwise_singleton _ _, ?_⟩
      intro p hp q hq
      simp only [List.mem_singleton] at hq
      rw [hq]
      exact hlt p hp
    · intro p hp
      rw [hins, List.mem_append] at hp
      rcases hp with h | h
      · exact Nat.lt_succ_of_lt (hlt p h)
      · simp only [List.mem_singleton] at h
        rw [h]
        exact Nat.lt_succ_self _
    · intro p hp
      exact Nat.lt_succ_of_lt (inv.active_lt_next p hp)
    · intro p hp q hq
      rw [hins, List.mem_append] at hq
      rcases hq with h | h
      · exact inv.active_lt_bud p hp q (hmem q h)
      · simp only [List.mem_singleton] at h
        rw [h]
        exact inv.active_lt_next p hp
    · rw [hins, List.length_append, List.length_singleton]
      rw [hbud]
      split
      · rename_i hfull
        rw [List.length_tail]
        have hb := inv.bud_bound
        unfold MAX_BUDDING_CONNECTIONS at hfull hb ⊢
        omega
      · rename_i hnotfull
        have hb := inv.bud_bound
        unfold MAX_BUDDING_CONNECTIONS at hnotfull hb ⊢
        omega
  | exit cid =>
    simp only [mgrStep, mgrOnExit]
    split
    · exact ⟨inv.bud_sorted, inv.bud_lt_next, by simp, by simp, inv.bud_bound⟩
    · refine ⟨inv.bud_sorted.filter _, ?_, inv.active_lt_next, ?_, ?_⟩
      · intro p hp
        exact inv.bud_lt_next p (List.mem_of_mem_filter hp)
      · intro p hp q hq
        exact inv.active_lt_bud p hp q (List.mem_of_mem_filter hq)
      · exact le_trans (List.length_filter_le _ _) inv.bud_bound
  | osk cid key reason =>
    have hbudding : MgrInv (mgrOnOskFromBudding s cid key reason).1 := by
      unfold mgrOnOskFromBudding
      cases hl : btLookup cid s.budding_connections with
      | none => exact inv
      | some handle =>
        have hmem := btLookup_mem cid handle s.budding_connections hl
        simp only
        refine ⟨(inv.bud_sorted.filter _).filter _, ?_, ?_, ?_, ?_⟩
        · intro p hp
          exact inv.bud_lt_next p
            (List.mem_of_mem_filter (List.mem_of_mem_filter hp))
        · intro p hp
          simp only [Option.some.injEq] at hp
          rw [← hp]
          exact inv.bud_lt_next _ hmem
        · intro p hp q hq
          simp only [Option.some.injEq] at hp
          rw [← hp]
          rcases List.mem_filter.mp hq with ⟨hq1, hq2⟩
          rcases List.mem_filter.mp hq1 with ⟨_, hq3⟩
          simp only [decide_eq_true_eq] at hq2
          simp only [bne_iff_ne, ne_eq] at hq3
          simp only
          omega
        · exact le_trans (List.length_filter_le _ _)
            (le_trans (List.length_filter_le _ _) inv.bud_bound)
    cases ha : s.active_connection with
    | none => simpa only [mgrStep, mgrOnOsk, ha] using hbudding
    | some p =>
      obtain ⟨a, h⟩ := p
      simp only [mgrStep, mgrOnOsk, ha]
      by_cases h1 : cid < a
      · rw [if_pos h1]
        exact inv
      · rw [if_neg h1]
        by_cases h2 : cid = a
        · rw [if_pos h2]
          exact inv
        · rw [if_neg h2]
          exact hbudding

/-- `v` is a lower bound on every OSK the manager can still forward from
state `s`: it is below the allocation counter, below any active id, and —
when there is no active connection — below every budding id. -/
def mgrLB {H : Type} (s : MgrState H) (v : Nat) : Prop :=
  v ≤ s.next_connection_id
  ∧ (∀ p, s.active_connection = some p → v ≤ p.1)
  ∧ (s.active_connection = none → ∀ q ∈ s.budding_connections, v ≤ q.1)

theorem mgrLB_step {H : Type} (s : MgrState H) (e : MgrEvent H) (v : Nat)
    (inv : MgrInv s) (lb : mgrLB s v) : mgrLB (mgrStep s e).1 v := by
  obtain ⟨lb1, lb2, lb3⟩ := lb
  cases e with
  | accept handle =>
    simp only [mgrStep, mgrOnAccept]
    set bud := if s.budding_connections.length ≥ MAX_BUDDING_CONNECTIONS
      then s.budding_connections.tail else s.budding_connections with hbud
    have hmem : ∀ p ∈ bud, p ∈ s.budding_connections := by
      rw [hbud]; split
      · exact fun p hp => (List.tail_sublist _).mem hp
      · exact fun p hp => hp
    have hlt : ∀ p ∈ bud, p.1 < s.next_connection_id :=
      fun p hp => inv.bud_lt_next p (hmem p hp)
    refine ⟨Nat.le_succ_of_le lb1, lb2, ?_⟩
    intro hact q hq
    rw [btInsert_append _ _ _ hlt, List.mem_append] at hq
    rcases hq with h | h
    · exact lb3 hact q (hmem q h)
    · simp only [List.mem_singleton] at h
      rw [h]
      exact lb1
  | exit cid =>
    simp only [mgrStep, mgrOnExit]
    split
    · rename_i hact
      refine ⟨lb1, by simp, ?_⟩
      intro _ q hq
      cases hac : s.active_connection with
      | none => simp [hac] at hact
      | some p =>
        exact Nat.le_of_lt (Nat.lt_of_le_of_lt (lb2 p hac)
          (inv.active_lt_bud p hac q hq))
    · refine ⟨lb1, lb2, ?_⟩
      intro hact q hq
      exact lb3 hact q (List.mem_of_mem_filter hq)
  | osk cid key reason =>
    have hbudding : mgrLB (mgrOnOskFromBudding s cid key reason).1 v := by
      unfold mgrOnOskFromBudding
      cases hl : btLookup cid s.budding_connections with
      | none => exact ⟨lb1, lb2, lb3⟩
      | some handle =>
        have hmem := btLookup_mem cid handle s.budding_connections hl
        have hv : v ≤ cid := by
          cases hac : s.active_connection with
          | none => exact lb3 hac _ hmem
          | some p =>
            exact Nat.le_trans (lb2 p hac)
              (Nat.le_of_lt (inv.active_lt_bud p hac _ hmem))
        refine ⟨lb1, ?_, by simp⟩
        intro p hp
        simp only [Option.some.injEq] at hp
        rw [← hp]
        exact hv
    cases ha : s.active_connection with
    | none => simpa only [mgrStep, mgrOnOsk, ha] using hbudding
    | some p =>
      obtain ⟨a, h⟩ := p
      simp only [mgrStep, mgrOnOsk, ha]
      by_cases h1 : cid < a
      · rw [if_pos h1]
        exact ⟨lb1, lb2, lb3⟩
      · rw [if_neg h1]
        by_cases h2 : cid = a
        · rw [if_pos h2]
          exact ⟨lb1, lb2, lb3⟩
        · rw [if_neg h2]
          exact hbudding

theorem mgrStep_emit_ge {H : Type} (s : MgrState H) (e : MgrEvent H) (v : Nat)
    (f : Forwarded) (inv : MgrInv s) (lb : mgrLB s v)
    (hf : (mgrStep s e).2 = some f) : v ≤ f.connection_id := by
  obtain ⟨lb1, lb2, lb3⟩ := lb
  cases e with
  | accept handle => simp [mgrStep] at hf
  | exit cid => simp [mgrStep] at hf
  | osk cid key reason =>
    have hbudding : (mgrOnOskFromBudding s cid key reason).2 = some f →
        v ≤ f.connection_id := by
      unfold mgrOnOskFromBudding
      cases hl : btLookup cid s.budding_connections with
      | none => simp
      | some handle =>
        have hmem := btLookup_mem cid handle s.budding_connections hl
        intro hsome
        simp only [Option.some.injEq] at hsome
        rw [← hsome]
        cases hac : s.active_connection with
        | none => exact lb3 hac _ hmem
        | some p =>
          exact Nat.le_trans (lb2 p hac)
            (Nat.le_of_lt (inv.active_lt_bud p hac _ hmem))
    cases ha : s.active_connection with
    | none =>
      simp only [mgrStep, mgrOnOsk, ha] at hf
      exact hbudding hf
    | some p =>
      obtain ⟨a, h⟩ := p
      simp only [mgrStep, mgrOnOsk, ha] at hf
      by_cases h1 : cid < a
      · rw [if_pos h1] at hf
        simp at hf
      · rw [if_neg h1] at hf
        by_cases h2 : cid = a
        · rw [if_pos h2] at hf
          simp only [Option.some.injEq] at hf
          rw [← hf]
          exact h2 ▸ lb2 (a, h) ha
        · rw [if_neg h2] at hf
          exact hbudding hf

theorem mgrStep_emit_lb {H : Type} (s : MgrState H) (e : MgrEvent H)
    (f : Forwarded) (inv : MgrInv s) (hf : (mgrStep s e).2 = some f) :
    mgrLB (mgrStep s e).1 f.connection_id := by
  cases e with
  | accept handle => simp [mgrStep] at hf
  | exit cid => simp [mgrStep] at hf
  | osk cid key reason =>
    have hbudding : (mgrOnOskFromBudding s cid key reason).2 = some f →
        mgrLB (mgrOnOskFromBudding s cid key reason).1 f.connection_id := by
      unfold mgrOnOskFromBudding
      cases hl : btLookup cid s.budding_connections with
      | none => simp
      | some handle =>
        have hmem := btLookup_mem cid handle s.budding_connections hl
        intro hsome
        simp only [Option.some.injEq] at hsome
        rw [← hsome]
        refine ⟨Nat.le_of_lt (inv.bud_lt_next _ hmem), ?_, by simp⟩
        intro p hp
        simp only [Option.some.injEq] at hp
        rw [← hp]
    cases ha : s.active_connection with
    | none =>
      simp only [mgrStep, mgrOnOsk, ha] at hf ⊢
      exact hbudding hf
    | some p =>
      obtain ⟨a, h⟩ := p
      simp only [mgrStep, mgrOnOsk, ha] at hf ⊢
      by_cases h1 : cid < a
      · rw [if_pos h1] at hf
        simp at hf
      · rw [if_neg h1] at hf ⊢
        by_cases h2 : cid = a
        · rw [if_pos h2] at hf ⊢
          simp only [Option.some.injEq] at hf
          rw [← hf]
          refine ⟨Nat.le_of_lt (h2 ▸ inv.active_lt_next (a, h) ha), ?_, by simp [ha]⟩
          intro p hp
          rw [ha] at hp
          simp only [Option.some.injEq] at hp
          rw [← hp, h2]
        · rw [if_neg h2] at hf ⊢
          exact hbudding hf

theorem mgrRunFrom_bounded {H : Type} (evs : List (MgrEvent H)) :
    ∀ (s : MgrState H) (v : Nat), MgrInv s → mgrLB s v →
      ∀ f ∈ (mgrRunFrom s evs).2, v ≤ f.connection_id := by
  induction evs with
  | nil => intro s v _ _ f hf; simp [mgrRunFrom] at hf
  | cons e evs ih =>
    intro s v inv lb f hf
    simp only [mgrRunFrom, List.mem_append] at hf
    rcases hf with h | h
    · cases hout : (mgrStep s e).2 with
      | none => rw [hout] at h; simp at h
      | some g =>
        rw [hout] at h
        simp only [Option.toList_some, List.mem_singleton] at h
        rw [h]
        exact mgrStep_emit_ge s e v g inv lb hout
    · exact ih (mgrStep s e).1 v (mgrInv_step s e inv) (mgrLB_step s e v inv lb) f h

theorem mgrRunFrom_monotone {H : Type} (evs : List (MgrEvent H)) :
    ∀ s : MgrState H, MgrInv s →
      ((mgrRunFrom s evs).2.map (fun f => f.connection_id)).Pairwise (· ≤ ·) := by
  induction evs with
  | nil => intro s _; simp [mgrRunFrom]
  | cons e evs ih =>
    intro s inv
    have inv' := mgrInv_step s e inv
    simp only [mgrRunFrom, List.map_append, List.pairwise_append]
    refine ⟨?_, ih (mgrStep s e).1 inv', ?_⟩
    · cases (mgrStep s e).2 <;> simp
    · intro x hx y hy
      cases hout : (mgrStep s e).2 with
      | none => rw [hout] at hx; simp at hx
      | some g =>
        rw [hout] at hx
        simp only [Option.toList_some, List.map_cons, List.map_nil,
          List.mem_singleton] at hx
        rw [hx]
        simp only [List.mem_map] at hy
        obtain ⟨f, hf, hfy⟩ := hy
        rw [← hfy]
        exact mgrRunFrom_bounded evs (mgrStep s e).1 g.connection_id inv'
          (mgrStep_emit_lb s e g inv hout) f hf

/-- The invariant holds in the initial state. -/
theorem mgrInv_init (H : Type) : MgrInv (mgrInit H) := by
  refine ⟨by simp [mgrInit], by simp [mgrInit], by simp [mgrInit],
    by simp [mgrInit], by simp [mgrInit, MAX_BUDDING_CONNECTIONS]⟩

theorem mgrRunFrom_inv {H : Type} (evs : List (MgrEvent H)) :
    ∀ s : MgrState H, MgrInv s → MgrInv (mgrRunFrom s evs).1 := by
  induction evs with
  | nil => intro s inv; exact inv
  | cons e evs ih => intro s inv; exact ih _ (mgrInv_step s e inv)

/-- The invariant holds in every reachable state. -/
theorem mgrInv_run {H : Type} (evs : List (MgrEvent H)) : MgrInv (mgrRun evs).1 :=
  mgrRunFrom_inv evs _ (mgrInv_init H)

/-! ### Claims C3, C4, C5 -/

/-- C3: over any serial event sequence processed from the initial manager
state, the connection ids of the OSKs forwarded to the sink handler are
pairwise non-decreasing: once an OSK from connection `i` has been
forwarded, no OSK from any `j < i` is forwarded afterwards. -/
theorem claim_C3 {H : Type} (evs : List (MgrEvent H)) :
    ((mgrRun evs).2.map (fun f => f.connection_id)).Pairwise (· ≤ ·) :=
  mgrRunFrom_monotone evs _ (mgrInv_init H)

/-- C4: when an Osk event for `cid` arrives with `cid` above the active id
(or with no active connection), then — if `cid` is budding — `cid` is
removed from the budding map and installed as active, exactly the budding
entries with id below `cid` are dropped, entries above `cid` are retained
unchanged (in order, with their handles), and the `(key, reason)` pair is
forwarded; if `cid` is not budding, the event is dropped and the state is
unchanged. -/
theorem claim_C4 {H : Type} (s : MgrState H) (cid : Nat) (key : List Nat)
    (reason : SetOskReason)
    (hactive : ∀ p, s.active_connection = some p → p.1 < cid) :
    (∀ handle, btLookup cid s.budding_connections = some handle →
      mgrOnOsk s cid key reason =
        ({ next_connection_id := s.next_connection_id
           active_connection := some (cid, handle)
           budding_connections :=
             s.budding_connections.filter (fun p => cid < p.1) },
         some ⟨cid, key, reason⟩))
    ∧ (btLookup cid s.budding_connections = none →
        mgrOnOsk s cid key reason = (s, none)) := by
  have hbud : ∀ (P : MgrState H × Option Forwarded → Prop),
      P (mgrOnOskFromBudding s cid key reason) →
      P (mgrOnOsk s cid key reason) := by
    intro P hp
    cases ha : s.active_connection with
    | none => simpa only [mgrOnOsk, ha] using hp
    | some p =>
      obtain ⟨a, h⟩ := p
      have hlt : a < cid := hactive (a, h) ha
      simp only [mgrOnOsk, ha]
      rw [if_neg (by omega), if_neg (by omega)]
      exact hp
  have hfilter : (btErase cid s.budding_connections).filter
        (fun p => decide (cid ≤ p.1))
      = s.budding_connections.filter (fun p => decide (cid < p.1)) := by
    unfold btErase
    rw [List.filter_filter]
    refine List.filter_congr ?_
    intro p _
    rcases Nat.lt_trichotomy p.1 cid with h | h | h
    · simp [Nat.not_le.mpr h, Nat.lt_asymm h]
    · simp [h, Nat.lt_irrefl]
    · simp [Nat.le_of_lt h, h, Nat.ne_of_gt h]
  constructor
  · intro handle hl
    refine hbud (fun r => r = _) ?_
    unfold mgrOnOskFromBudding
    rw [hl]
    show (({ next_connection_id := s.next_connection_id
             active_connection := some (cid, handle)
             budding_connections := (btErase cid s.budding_connections).filter
               (fun p => decide (cid ≤ p.1)) } : MgrState H),
          (some ⟨cid, key, reason⟩ : Option Forwarded)) = _
    rw [hfilter]
  · intro hl
    refine hbud (fun r => r = (s, none)) ?_
    unfold mgrOnOskFromBudding
    rw [hl]

/-- C4 witness: a concrete promotion and a concrete dropped event. -/
theorem claim_C4_witness :
    mgrOnOsk (H := Nat)
        { next_connection_id := 5, active_connection := some (1, 99),
          budding_connections := [(2, 7), (3, 8), (4, 9)] } 3 [170] SetOskReason.Fresh
      = ({ next_connection_id := 5, active_connection := some (3, 8),
           budding_connections := [(4, 9)] },
         some ⟨3, [170], SetOskReason.Fresh⟩)
    ∧ mgrOnOsk (H := Nat)
        { next_connection_id := 5, active_connection := some (1, 99),
          budding_connections := [(2, 7), (3, 8), (4, 9)] } 7 [170] SetOskReason.Fresh
      = ({ next_connection_id := 5, active_connection := some (1, 99),
           budding_connections := [(2, 7), (3, 8), (4, 9)] },
         none) := by
  have hactive3 : ∀ p : Nat × Nat, some ((1 : Nat), (99 : Nat)) = some p → p.1 < 3 := by
    intro p hp
    injection hp with h
    rw [← h]
    decide
  have hactive7 : ∀ p : Nat × Nat, some ((1 : Nat), (99 : Nat)) = some p → p.1 < 7 := by
    intro p hp
    injection hp with h
    rw [← h]
    decide
  constructor
  · have h := (claim_C4 (H := Nat)
      { next_connection_id := 5, active_connection := some (1, 99),
        budding_connections := [(2, 7), (3, 8), (4, 9)] } 3 [170] SetOskReason.Fresh
      hactive3).1 8 (by decide)
    rw [h]
    decide
  · exact (claim_C4 (H := Nat)
      { next_connection_id := 5, active_connection := some (1, 99),
        budding_connections := [(2, 7), (3, 8), (4, 9)] } 7 [170] SetOskReason.Fresh
      hactive7).2 (by decide)

/-- Count the Accept events in an event list. -/
def countAccepts {H : Type} (evs : List (MgrEvent H)) : Nat :=
  evs.countP (fun e => match e with | .accept _ => true | _ => false)

theorem mgrRunFrom_next {H : Type} (evs : List (MgrEvent H)) :
    ∀ s : MgrState H, (mgrRunFrom s evs).1.next_connection_id
      = s.next_connection_id + countAccepts evs := by
  induction evs with
  | nil => intro s; simp [mgrRunFrom, countAccepts]
  | cons e evs ih =>
    intro s
    cases e with
    | accept handle =>
      have hc : countAccepts (MgrEvent.accept handle :: evs) = countAccepts evs + 1 := by
        unfold countAccepts
        rw [List.countP_cons]
        simp
      simp only [mgrRunFrom]
      rw [ih, hc]
      simp only [mgrStep, mgrOnAccept]
      omega
    | exit cid =>
      have hc : countAccepts (MgrEvent.exit cid :: evs) = countAccepts evs := by
        unfold countAccepts
        rw [List.countP_cons]
        simp
      simp only [mgrRunFrom]
      rw [ih, hc]
      have hnext : (mgrStep s (MgrEvent.exit cid)).1.next_connection_id
          = s.next_connection_id := by
        simp only [mgrStep, mgrOnExit]
        split <;> rfl
      rw [hnext]
    | osk cid key reason =>
      have hc : countAccepts (MgrEvent.osk cid key reason :: evs) = countAccepts evs := by
        unfold countAccepts
        rw [List.countP_cons]
        simp
      simp only [mgrRunFrom]
      rw [ih, hc]
      have hb : (mgrOnOskFromBudding s cid key reason).1.next_connection_id
          = s.next_connection_id := by
        unfold mgrOnOskFromBudding
        cases btLookup cid s.budding_connections <;> simp
      have hnext : (mgrStep s (MgrEvent.osk cid key reason)).1.next_connection_id
          = s.next_connection_id := by
        cases ha : s.active_connection with
        | none =>
          simp only [mgrStep, mgrOnOsk, ha]
          exact hb
        | some p =>
          obtain ⟨a, h⟩ := p
          simp only [mgrStep, mgrOnOsk, ha]
          by_cases h1 : cid < a
          · rw [if_pos h1]
          · rw [if_neg h1]
            by_cases h2 : cid = a
            · rw [if_pos h2]
            · rw [if_neg h2]
              exact hb
      rw [hnext]

/-- C5: in every reachable manager state the budding map holds at most
`MAX_BUDDING_CONNECTIONS = 2000` entries and every stored id is below the
next (strictly increasing, 0-based) id to be assigned; the allocation
counter equals the number of accepts processed; and when an Accept arrives
while the map holds exactly 2000 entries, exactly the entry with the
smallest id is evicted and the new, larger id is appended. -/
theorem claim_C5 {H : Type} (evs : List (MgrEvent H)) :
    (mgrRun evs).1.budding_connections.length ≤ MAX_BUDDING_CONNECTIONS
    ∧ (∀ p ∈ (mgrRun evs).1.budding_connections,
        p.1 < (mgrRun evs).1.next_connection_id)
    ∧ (mgrRun evs).1.next_connection_id = countAccepts evs
    ∧ (∀ handle,
        (mgrRun evs).1.budding_connections.length = MAX_BUDDING_CONNECTIONS →
        (mgrOnAccept (mgrRun evs).1 handle).budding_connections
          = (mgrRun evs).1.budding_connections.tail
              ++ [((mgrRun evs).1.next_connection_id, handle)]
        ∧ ∀ p ∈ (mgrRun evs).1.budding_connections.head?.toList,
            ∀ q ∈ (mgrRun evs).1.budding_connections, p.1 ≤ q.1) := by
  have inv := mgrInv_run evs
  refine ⟨inv.bud_bound, inv.bud_lt_next, ?_, ?_⟩
  · have h := mgrRunFrom_next evs (mgrInit H)
    unfold mgrRun
    rw [h]
    simp [mgrInit]
  · intro handle hfull
    constructor
    · unfold mgrOnAccept
      rw [if_pos (by rw [hfull])]
      refine btInsert_append _ _ _ ?_
      intro p hp
      exact inv.bud_lt_next p ((List.tail_sublist _).mem hp)
    · exact head_le_of_sorted _ inv.bud_sorted

/-- Closed form for a run consisting only of Accept events: ids are handed
out consecutively and appended to the budding map (no eviction while below
the bound). -/
theorem mgrRunFrom_accepts : ∀ (n k : Nat) (bud : List (Nat × Nat)),
    bud.length + n ≤ MAX_BUDDING_CONNECTIONS → (∀ p ∈ bud, p.1 < k) →
    (mgrRunFrom (H := Nat) ⟨k, none, bud⟩
        (List.replicate n (MgrEvent.accept 0))).1
      = ⟨k + n, none, bud ++ (List.range n).map (fun i => (k + i, 0))⟩ := by
  intro n
  induction n with
  | zero => intro k bud _ _; simp [mgrRunFrom]
  | succ n ih =>
    intro k bud hlen hkeys
    rw [List.replicate_succ]
    simp only [mgrRunFrom]
    have hstep : (mgrStep (H := Nat) ⟨k, none, bud⟩ (MgrEvent.accept 0)).1
        = ⟨k + 1, none, bud ++ [(k, 0)]⟩ := by
      simp only [mgrStep, mgrOnAccept]
      rw [if_neg (by unfold MAX_BUDDING_CONNECTIONS at hlen ⊢; omega)]
      rw [btInsert_append _ _ _ hkeys]
    rw [hstep]
    rw [ih (k + 1) (bud ++ [(k, 0)])
      (by rw [List.length_append, List.length_singleton]; omega)
      (by
        intro p hp
        rw [List.mem_append] at hp
        rcases hp with h | h
        · exact Nat.lt_succ_of_lt (hkeys p h)
        · simp only [List.mem_singleton] at h
          rw [h]
          exact Nat.lt_succ_self k)]
    have harith : k + 1 + n = k + (n + 1) := by omega
    have hmap : (k, (0 : Nat)) :: (List.range n).map (fun i => (k + 1 + i, (0 : Nat)))
        = (List.range (n + 1)).map (fun i => (k + i, (0 : Nat))) := by
      rw [List.range_succ_eq_map, List.map_cons, List.map_map]
      refine congrArg₂ (· :: ·) (by simp) ?_
      refine List.map_congr_left ?_
      intro i _
      simp only [Function.comp_apply, Prod.mk.injEq, and_true]
      omega
    rw [harith, List.append_assoc, List.singleton_append, hmap]

theorem budding_after_2000 :
    (mgrRun (H := Nat)
        (List.replicate 2000 (MgrEvent.accept 0))).1.budding_connections.length
      = 2000 := by
  unfold mgrRun mgrInit
  rw [mgrRunFrom_accepts 2000 0 []
    (by simp [MAX_BUDDING_CONNECTIONS]) (by simp)]
  simp

/-- C5 witness: after exactly 2000 accepts the budding map is full, and the
next accept evicts the head (smallest id) and appends the fresh id. -/
theorem claim_C5_witness :
    (mgrRun (H := Nat)
        (List.replicate 2000 (MgrEvent.accept 0))).1.budding_connections.length
      ≤ MAX_BUDDING_CONNECTIONS
    ∧ (mgrOnAccept
          (mgrRun (H := Nat) (List.replicate 2000 (MgrEvent.accept 0))).1
          7).budding_connections
        = (mgrRun (H := Nat)
            (List.replicate 2000 (MgrEvent.accept 0))).1.budding_connections.tail
          ++ [((mgrRun (H := Nat)
                (List.replicate 2000 (MgrEvent.accept 0))).1.next_connection_id, 7)] := by
  have h := claim_C5 (H := Nat) (List.replicate 2000 (MgrEvent.accept 0))
  exact ⟨h.1, (h.2.2.2 7 (by rw [budding_after_2000]; rfl)).1⟩

/-! ## OSK deadman (`internal/osk/deadman.rs`)

`DeadmanWorker::event_loop` first erases the OSK, then loops on
`timeout_at(next_erase, requests.recv())`. We model the successive
outcomes of that awaited expression as an input list (`Some(Some(req))`,
`Some(None)` = channel closed, `None` = deadline elapsed), and the broker's
fallibility as a predicate `fail` on the index of the sink invocation. -/

/-- One outcome of `timeout_at(next_erase, self.requests.recv()).await.ok()`. -/
inductive RecvOutcome where
  | req (key : List Nat) (reason : SetOskReason)
  | closed
  | timeout

/-- A call the worker makes on the concrete sink (the broker). -/
inductive SinkCall where
  | setOsk (key : List Nat) (reason : SetOskReason)
  | eraseStale
  deriving Repr, DecidableEq

/-- How a run of the worker's event loop ends. -/
inductive DmResult where
  | ok
  | err
  | running
  deriving Repr, DecidableEq

/-- The loop of `DeadmanWorker::event_loop`, started at sink-call index `n`:
returns the sink calls made (in order, including a failing one) and how the
loop ended. `running` means the supplied outcomes were exhausted with the
loop still going. -/
def dmGo (fail : Nat → Bool) : Nat → List RecvOutcome → List SinkCall × DmResult
  | _, [] => ([], DmResult.running)
  | n, RecvOutcome.req key reason :: rest =>
    if fail n then ([SinkCall.setOsk key reason], DmResult.err)
    else
      let r := dmGo fail (n + 1) rest
      (SinkCall.setOsk key reason :: r.1, r.2)
  | n, RecvOutcome.closed :: _ =>
    if fail n then ([SinkCall.eraseStale], DmResult.err)
    else ([SinkCall.eraseStale], DmResult.ok)
  | n, RecvOutcome.timeout :: rest =>
    if fail n then ([SinkCall.eraseStale], DmResult.err)
    else
      let r := dmGo fail (n + 1) rest
      (SinkCall.eraseStale :: r.1, r.2)

/-- `DeadmanWorker::event_loop`: the startup `erase_stale_osk` (call 0)
followed by the loop. -/
def dmEventLoop (fail : Nat → Bool) (outs : List RecvOutcome) :
    List SinkCall × DmResult :=
  if fail 0 then ([SinkCall.eraseStale], DmResult.err)
  else
    let r := dmGo fail 1 outs
    (SinkCall.eraseStale :: r.1, r.2)

/-- `DeadmanWorker::start` panics the worker thread exactly when
`thread_run`/`event_loop` returns an error. -/
def dmWorkerPanics (fail : Nat → Bool) (outs : List RecvOutcome) : Bool :=
  (dmEventLoop fail outs).2 == DmResult.err

/-- `start_deadman` (`internal/daisyway/setup.rs`): the deadman is started
with `erase_after = Duration::from_secs(rekey_interval + 30)` (in seconds). -/
def start_deadman_erase_after (rekey_interval : Nat) : Nat := rekey_interval + 30

/-- Spec-side (§4.6): the sink calls after startup — forward each request,
erase on each elapsed deadline, erase once more on closure and stop. -/
def dmSpecCalls : List RecvOutcome → List SinkCall
  | [] => []
  | RecvOutcome.req key reason :: rest => SinkCall.setOsk key reason :: dmSpecCalls rest
  | RecvOutcome.timeout :: rest => SinkCall.eraseStale :: dmSpecCalls rest
  | RecvOutcome.closed :: _ => [SinkCall.eraseStale]

/-- Spec-side (§4.6): the loop exits successfully exactly on channel
closure. -/
def dmSpecResult : List RecvOutcome → DmResult
  | [] => DmResult.running
  | RecvOutcome.closed :: _ => DmResult.ok
  | _ :: rest => dmSpecResult rest

theorem dmGo_nofail (fail : Nat → Bool) (hfail : ∀ j, fail j = false) :
    ∀ (outs : List RecvOutcome) (n : Nat),
      dmGo fail n outs = (dmSpecCalls outs, dmSpecResult outs) := by
  intro outs
  induction outs with
  | nil => intro n; rfl
  | cons o rest ih =>
    intro n
    cases o with
    | req key reason =>
      simp [dmGo, hfail n, ih (n + 1), dmSpecCalls, dmSpecResult]
    | closed =>
      simp [dmGo, hfail n, dmSpecCalls, dmSpecResult]
    | timeout =>
      simp [dmGo, hfail n, ih (n + 1), dmSpecCalls, dmSpecResult]

theorem dmGo_fail (fail : Nat → Bool) :
    ∀ (outs : List RecvOutcome) (n k : Nat),
      (∀ j, n ≤ j → j < n + k → fail j = false) → fail (n + k) = true →
      k < (dmSpecCalls outs).length →
      dmGo fail n outs = ((dmSpecCalls outs).take (k + 1), DmResult.err) := by
  intro outs
  induction outs with
  | nil => intro n k _ _ hk; simp [dmSpecCalls] at hk
  | cons o rest ih =>
    intro n k hbelow hk hlen
    cases o with
    | req key reason =>
      cases k with
      | zero =>
        simp only [Nat.add_zero] at hk
        simp [dmGo, hk, dmSpecCalls]
      | succ k =>
        have h0 : fail n = false := hbelow n (Nat.le_refl n) (by omega)
        simp only [dmSpecCalls, List.length_cons] at hlen
        simp only [dmGo, h0, if_false, dmSpecCalls]
        rw [ih (n + 1) k (fun j h1 h2 => hbelow j (by omega) (by omega))
          (by rw [show n + 1 + k = n + (k + 1) from by omega]; exact hk)
          (by omega)]
        simp [List.take_succ_cons]
    | closed =>
      simp only [dmSpecCalls, List.length_singleton] at hlen
      have hk0 : k = 0 := by omega
      subst hk0
      simp only [Nat.add_zero] at hk
      simp [dmGo, hk, dmSpecCalls]
    | timeout =>
      cases k with
      | zero =>
        simp only [Nat.add_zero] at hk
        simp [dmGo, hk, dmSpecCalls]
      | succ k =>
        have h0 : fail n = false := hbelow n (Nat.le_refl n) (by omega)
        simp only [dmSpecCalls, List.length_cons] at hlen
        simp only [dmGo, h0, if_false, dmSpecCalls]
        rw [ih (n + 1) k (fun j h1 h2 => hbelow j (by omega) (by omega))
          (by rw [show n + 1 + k = n + (k + 1) from by omega]; exact hk)
          (by omega)]
        simp [List.take_succ_cons]

/-- C6: the deadman worker first invokes `erase_stale_osk` before
forwarding anything; the deadman wraps the sink with
`erase_after = rekey_interval + 30` seconds; with a never-failing sink the
run is exactly the spec behaviour of §4.6 — forward each request, erase on
each elapsed deadline, erase once more and return successfully on closure —
and if the sink's k-th call is the first to fail, the loop stops right
there with the error propagated (which panics the worker thread) rather
than swallowed. -/
theorem claim_C6 (fail : Nat → Bool) (outs : List RecvOutcome) (ri : Nat) :
    (dmEventLoop fail outs).1.head? = some SinkCall.eraseStale
    ∧ start_deadman_erase_after ri = ri + 30
    ∧ ((∀ j, fail j = false) →
        dmEventLoop fail outs
          = (SinkCall.eraseStale :: dmSpecCalls outs, dmSpecResult outs))
    ∧ (∀ k, (∀ j, j < k → fail j = false) → fail k = true →
        k < (SinkCall.eraseStale :: dmSpecCalls outs).length →
        dmEventLoop fail outs
          = ((SinkCall.eraseStale :: dmSpecCalls outs).take (k + 1), DmResult.err))
    ∧ ((dmEventLoop fail outs).2 = DmResult.err ↔ dmWorkerPanics fail outs = true) := by
  refine ⟨?_, rfl, ?_, ?_, ?_⟩
  · unfold dmEventLoop
    cases fail 0 <;> simp
  · intro hfail
    unfold dmEventLoop
    rw [hfail 0]
    simp [dmGo_nofail fail hfail outs 1]
  · intro k hbelow hk hlen
    cases k with
    | zero =>
      unfold dmEventLoop
      rw [hk]
      simp
    | succ k =>
      have h0 : fail 0 = false := hbelow 0 (by omega)
      simp only [List.length_cons] at hlen
      unfold dmEventLoop
      rw [h0]
      simp only [if_false]
      rw [dmGo_fail fail outs 1 k (fun j h1 h2 => hbelow j (by omega))
        (by rw [show 1 + k = k + 1 from by omega]; exact hk) (by omega)]
      simp [List.take_succ_cons]
  · unfold dmWorkerPanics
    cases h : (dmEventLoop fail outs).2 <;> simp [h]

/-- C6 witness: a run with a never-failing sink, and a run whose third sink
call (index 2) fails. -/
theorem claim_C6_witness :
    dmEventLoop (fun _ => false)
        [RecvOutcome.timeout, RecvOutcome.req [1] SetOskReason.Fresh, RecvOutcome.closed]
      = ([SinkCall.eraseStale, SinkCall.eraseStale,
          SinkCall.setOsk [1] SetOskReason.Fresh, SinkCall.eraseStale], DmResult.ok)
    ∧ dmEventLoop (fun j => j == 2)
        [RecvOutcome.timeout, RecvOutcome.req [1] SetOskReason.Fresh, RecvOutcome.closed]
      = ([SinkCall.eraseStale, SinkCall.eraseStale,
          SinkCall.setOsk [1] SetOskReason.Fresh], DmResult.err)
    ∧ start_deadman_erase_after 120 = 150 := by
  have h1 := claim_C6 (fun _ => false)
    [RecvOutcome.timeout, RecvOutcome.req [1] SetOskReason.Fresh, RecvOutcome.closed] 120
  have h2 := claim_C6 (fun j => j == 2)
    [RecvOutcome.timeout, RecvOutcome.req [1] SetOskReason.Fresh, RecvOutcome.closed] 120
  refine ⟨?_, ?_, h1.2.1⟩
  · rw [h1.2.2.1 (fun j => rfl)]
    rfl
  · rw [h2.2.2.2.1 2 (fun j hj => by
      interval_cases j <;> rfl) rfl (by simp [dmSpecCalls])]
    rfl

/-! ## Rekey wire messages (`crypto/server.rs`, `crypto/client.rs`)

`DaisywayServerProtocol::negotiate_key` builds
`RekeyReq::new(key.id.as_bytes().to_owned())` and writes its packed bytes
(`qkd_key_id ‖ nonce`); `DaisywayClientProtocol::wait_for_key_negotiation`
reads those 48 bytes and fetches `Uuid::from_bytes(rekey_req.qkd_key_id)`. -/

/-- The 48 wire octets the server role writes: `qkd_key_id ‖ nonce` with
`qkd_key_id = key.id.as_bytes()`. -/
def serverRekeyReqBytes (key_id : Uuid) (nonce : List Nat) : List Nat :=
  key_id.as_bytes ++ nonce

/-- The UUID the client role reconstructs from the received 48 octets:
`Uuid::from_bytes` of the first 16. -/
def clientParseQkdKeyId (wire : List Nat) : Uuid :=
  Uuid.from_bytes (wire.take 16)

/-- The nonce the client role reads: octets 16..48. -/
def clientParseNonce (wire : List Nat) : List Nat :=
  (wire.drop 16).take 32

/-- C7 (counterexample): for the UUID with bytes 00,01,…,0f the first 16
wire octets are its RFC 4122 (`Uuid::as_bytes`) encoding, which differs
from its little-endian (`Uuid::to_bytes_le`) encoding, so the claim's
"little-endian" reading of the wire field is false. -/
theorem claim_C7_counterexample :
    (serverRekeyReqBytes ⟨List.range 16⟩ (List.replicate 32 0)).take 16
      ≠ (Uuid.to_bytes_le ⟨List.range 16⟩)
    ∧ clientParseQkdKeyId (serverRekeyReqBytes ⟨List.range 16⟩ (List.replicate 32 0))
      ≠ Uuid.from_bytes (Uuid.to_bytes_le ⟨List.range 16⟩) := by
  constructor
  · decide
  · intro h
    have := congrArg Uuid.bytes h
    revert this
    decide

/-- C7 (amended: the wire field uses `Uuid::as_bytes`, the RFC 4122
big-endian byte order, not little-endian): the first 16 octets of the
48-octet RekeyReq are `key.id.as_bytes()`, the full message is 48 octets,
and the client interprets the received 16 octets under that same
convention (`Uuid::from_bytes`), recovering exactly the server's UUID and
nonce. -/
theorem claim_C7_amended (id : Uuid) (nonce : List Nat)
    (hid : id.bytes.length = 16) (hn : nonce.length = 32) :
    (serverRekeyReqBytes id nonce).take 16 = id.as_bytes
    ∧ (serverRekeyReqBytes id nonce).length = 48
    ∧ clientParseQkdKeyId (serverRekeyReqBytes id nonce) = id
    ∧ clientParseNonce (serverRekeyReqBytes id nonce) = nonce := by
  have htake : (serverRekeyReqBytes id nonce).take 16 = id.as_bytes := by
    unfold serverRekeyReqBytes Uuid.as_bytes
    rw [← hid, List.take_left]
  refine ⟨htake, ?_, ?_, ?_⟩
  · unfold serverRekeyReqBytes Uuid.as_bytes
    rw [List.length_append, hid, hn]
  · unfold clientParseQkdKeyId
    rw [htake]
    unfold Uuid.as_bytes Uuid.from_bytes
    rfl
  · unfold clientParseNonce serverRekeyReqBytes Uuid.as_bytes
    rw [← hid, List.drop_left, ← hn, List.take_length]

/-- C7 witness: the amended claim on a concrete UUID and nonce. -/
theorem claim_C7_amended_witness :
    (serverRekeyReqBytes ⟨List.range 16⟩ (List.replicate 32 7)).take 16
      = (⟨List.range 16⟩ : Uuid).as_bytes
    ∧ clientParseQkdKeyId (serverRekeyReqBytes ⟨List.range 16⟩ (List.replicate 32 7))
      = ⟨List.range 16⟩ :=
  have h := claim_C7_amended ⟨List.range 16⟩ (List.replicate 32 7)
    (by simp) (by simp)
  ⟨h.1, h.2.2.1⟩

/-! ## ETSI-014 response parsing (`internal/etsi014.rs`)

`impl TryFrom<ResponseKey> for Etsi014Key` runs
`assert!(Base64::encoded_len(key.as_bytes()) != Key::LEN)`, then
`Base64::decode(key.as_bytes(), &mut dec_buf).unwrap()` into a 32-byte
buffer, then `decoded.try_into()?`. The `base64ct` crate is a library
dependency; `b64Decode` below models its strict, padded, standard-alphabet
decoding (`Base64::decode` additionally errors when the decoded output
exceeds the buffer). A Rust panic (failed `assert!` or `.unwrap()` on
`Err`) is modelled as a distinct outcome. -/

/-- Outcome of fallible Rust code that may also panic. -/
inductive RustOutcome (α : Type) where
  | ok (value : α)
  | err
  | panicked
  deriving Repr, DecidableEq

/-- `base64ct::Base64::encoded_len` for an input of `n` bytes (padded). -/
def b64EncodedLen (n : Nat) : Nat := ((n + 2) / 3) * 4

/-- Decode one standard-alphabet base64 symbol (by ASCII code). -/
def b64CharDec (c : Nat) : Option Nat :=
  if 65 ≤ c ∧ c ≤ 90 then some (c - 65)
  else if 97 ≤ c ∧ c ≤ 122 then some (c - 71)
  else if 48 ≤ c ∧ c ≤ 57 then some (c + 4)
  else if c = 43 then some 62
  else if c = 47 then some 63
  else none

/-- Strict padded base64 decoding by 4-symbol groups; `=` (ASCII 61) is
allowed only as final padding and non-zero trailing bits are rejected. -/
def b64DecodeGroups : List Nat → Option (List Nat)
  | [] => some []
  | c1 :: c2 :: c3 :: c4 :: rest =>
    match b64CharDec c1, b64CharDec c2 with
    | some a, some b =>
      if rest.isEmpty then
        if c3 = 61 ∧ c4 = 61 then
          if b % 16 = 0 then some [a * 4 + b / 16] else none
        else if c4 = 61 then
          match b64CharDec c3 with
          | some c =>
            if c % 4 = 0 then some [a * 4 + b / 16, b % 16 * 16 + c / 4] else none
          | none => none
        else
          match b64CharDec c3, b64CharDec c4 with
          | some c, some d =>
            some [a * 4 + b / 16, b % 16 * 16 + c / 4, c % 4 * 64 + d]
          | _, _ => none
      else
        match b64CharDec c3, b64CharDec c4 with
        | some c, some d =>
          match b64DecodeGroups rest with
          | some tail =>
            some ([a * 4 + b / 16, b % 16 * 16 + c / 4, c % 4 * 64 + d] ++ tail)
          | none => none
        | _, _ => none
    | _, _ => none
  | _ => none

/-- `base64ct::Base64::decode` of a byte string (without the buffer bound). -/
def b64Decode (s : List Nat) : Option (List Nat) := b64DecodeGroups s

/-- `impl TryFrom<ResponseKey> for Etsi014Key`: `id` is the parsed
`key_ID` UUID, `key` the raw bytes of the JSON `key` string. -/
def etsi014KeyOfResponseKey (id : Uuid) (key : List Nat) : RustOutcome Etsi014Key :=
  if b64EncodedLen key.length = KEY_LENGTH then RustOutcome.panicked
  else
    match b64Decode key with
    | none => RustOutcome.panicked
    | some decoded =>
      if KEY_LENGTH < decoded.length then RustOutcome.panicked
      else if decoded.length = KEY_LENGTH then RustOutcome.ok ⟨id, decoded⟩
      else RustOutcome.err

/-- `impl TryFrom<ResponseKeys> for Etsi014Key`: `ensure!` exactly one
entry, then convert it. -/
def etsi014KeyOfResponseKeys (keys : List (Uuid × List Nat)) :
    RustOutcome Etsi014Key :=
  match keys with
  | [(id, key)] => etsi014KeyOfResponseKey id key
  | _ => RustOutcome.err

/-- C9 (code bug): a malformed `key` string that is not valid base64 makes
the parser panic (`.unwrap()` on the decode error) instead of returning an
error — here the 4-byte string `"####"`; a 22-byte key string even panics
on the inverted `assert!` (its padded encoded length is 32). The other two
malformation classes do return errors as claimed: a keys array without
exactly one entry, and a well-formed base64 string decoding to fewer than
32 bytes (`"YWJj"` → 3 bytes). A valid 44-byte encoding of 32 bytes
parses successfully. -/
theorem claim_C9_bug :
    etsi014KeyOfResponseKeys
        [(⟨List.replicate 16 0⟩, [35, 35, 35, 35])] = RustOutcome.panicked
    ∧ etsi014KeyOfResponseKeys
        [(⟨List.replicate 16 0⟩, List.replicate 22 65)] = RustOutcome.panicked
    ∧ etsi014KeyOfResponseKeys ([] : List (Uuid × List Nat)) = RustOutcome.err
    ∧ etsi014KeyOfResponseKeys
        [(⟨List.replicate 16 0⟩, [89, 87, 74, 106]),
         (⟨List.replicate 16 0⟩, [89, 87, 74, 106])] = RustOutcome.err
    ∧ etsi014KeyOfResponseKeys
        [(⟨List.replicate 16 0⟩, [89, 87, 74, 106])] = RustOutcome.err
    ∧ etsi014KeyOfResponseKeys
        [(⟨List.replicate 16 0⟩,
          List.replicate 43 65 ++ [61])]
      = RustOutcome.ok ⟨⟨List.replicate 16 0⟩, List.replicate 32 0⟩ := by
  refine ⟨by decide, by decide, by decide, by decide, by decide, by decide⟩

/-! ## PSK configuration default (`internal/daisyway/setup.rs`)

In `Daisyway::from_config` the PSK is
`cfg.peer.psk_file.map(load_base64_key_file).unwrap_or(Ok(Key::new_zeroed()))?`;
the file loader is irrelevant when `psk_file` is absent, so it is passed in
as a function. -/

/-- The PSK selection of `Daisyway::from_config`. -/
def pskFromConfig {α : Type} (psk_file : Option α)
    (load_base64_key_file : α → Except String (List Nat)) :
    Except String (List Nat) :=
  match psk_file with
  | some file => load_base64_key_file file
  | none => Except.ok (List.replicate KEY_LENGTH 0)

/-- C10: with `peer.psk_file` omitted the PSK step succeeds and yields the
all-zero 32-byte key, and any OSK derived from the resulting protocol
parameters is `derive_daisyway_key` with `psk = 00×32`. -/
theorem claim_C10 {α : Type} (load : α → Except String (List Nat))
    (a b nonce : List Nat) (k : Etsi014Key) :
    pskFromConfig none load = Except.ok (List.replicate 32 0)
    ∧ (∀ psk, pskFromConfig (α := α) none load = Except.ok psk →
        derive_daisyway_key ⟨psk, a, b⟩ nonce k
          = derive_daisyway_key ⟨List.replicate 32 0, a, b⟩ nonce k) := by
  refine ⟨rfl, ?_⟩
  intro psk h
  unfold pskFromConfig at h
  simp only [KEY_LENGTH, Except.ok.injEq] at h
  rw [← h]

/-- C10 witness: the zero PSK round-trips through the default branch. -/
theorem claim_C10_witness :
    pskFromConfig (α := Unit) none (fun _ => Except.error "")
      = Except.ok (List.replicate 32 0)
    ∧ derive_daisyway_key
        ⟨List.replicate 32 0, List.replicate 32 1, List.replicate 32 2⟩
        (List.replicate 32 3) ⟨⟨List.replicate 16 5⟩, List.replicate 32 4⟩
      = derive_daisyway_key
        ⟨List.replicate 32 0, List.replicate 32 1, List.replicate 32 2⟩
        (List.replicate 32 3) ⟨⟨List.replicate 16 5⟩, List.replicate 32 4⟩ :=
  have h := claim_C10 (α := Unit) (fun _ => Except.error "")
    (List.replicate 32 1) (List.replicate 32 2) (List.replicate 32 3)
    ⟨⟨List.replicate 16 5⟩, List.replicate 32 4⟩
  ⟨h.1, h.2 (List.replicate 32 0) rfl⟩

end Daisyway
